import Mathlib

/-!
Verification of the interactive fuzzy picker of `pytest-watcher`
(`src/pytest_watcher/picker.py` and `src/pytest_watcher/fuzzy.py`),
as a shallow embedding in Lean 4.

Modelling conventions:
* Python strings handled character by character (queries, candidate paths fed
  to the fuzzy scorer) are modelled as `List Char`; strings that are only
  concatenated and displayed (rendered lines) are modelled as `String`.
* The injected `read_char` callable of the picker is modelled as a finite
  script of `Option Char` values consumed left to right; `none` is the
  "no data currently available" sentinel.  An exhausted script keeps
  returning the sentinel, exactly like the test doubles built with
  `next(it, None)` in the repository's test-suite.
* Python `int` values that can go negative (the selection cursor, the
  `prev_match_idx` sentinel of the scorer) are modelled as `Int`;
  values that are always list lengths are modelled as `Nat`.
* `list.sort(key=lambda t: t[0], reverse=True)` is a stable sort by strictly
  descending first component.  It is embedded as `List.insertionSort` with
  the relation `scoreGe a b := b.1 ≤ a.1`: Mathlib's insertion sort inserts
  an earlier element *before* later elements it ties with, which is exactly
  the stable descending order Python's Timsort produces.
-/

namespace PytestWatcher

/-! ### Key events (`picker.py`, key constants and `KeyEvent`) -/

def KEY_ENTER : String := "enter"

def KEY_ESCAPE : String := "escape"

def KEY_BACKSPACE : String := "backspace"

def KEY_UP : String := "up"

def KEY_DOWN : String := "down"

def KEY_CHAR : String := "char"

/-- `KeyEvent` dataclass from picker.py: a kind tag plus the character
payload (empty for everything but `KEY_CHAR`). -/
structure KeyEvent where
  kind : String
  char : String := ""
deriving DecidableEq

/-! ### Key decoder (`_read_continuation`, `_parse_arrow`, `_read_key_event`) -/

/-- A scripted input source: one entry per call to the injected `read_char`
callable, `none` being the "no data" sentinel.  Reading past the end keeps
returning the sentinel (like the repository's test doubles). -/
abbrev Script := List (Option Char)

/-- One call to the scripted reader: pop the next scripted return value. -/
def readChar : Script → Option Char × Script
  | [] => (none, [])
  | x :: xs => (x, xs)

/-- `_ESC_READ_RETRIES` from picker.py. -/
def escReadRetries : Nat := 4

/-- Loop of `_read_continuation`: make at most `n` calls to the reader and
return the first real character found, or `none` if all `n` calls returned
the sentinel. -/
def readContinuationAux : Nat → Script → Option Char × Script
  | 0, s => (none, s)
  | n + 1, s =>
    match readChar s with
    | (some c, s1) => (some c, s1)
    | (none, s1) => readContinuationAux n s1

/-- `_read_continuation` from picker.py: read the next real character,
making at most `_ESC_READ_RETRIES` calls to the reader. -/
def readContinuation (s : Script) : Option Char × Script :=
  readContinuationAux escReadRetries s

/-- `_parse_arrow` from picker.py. -/
def parseArrow : Option Char → Option KeyEvent
  | some 'A' => some ⟨KEY_UP, ""⟩
  | some 'B' => some ⟨KEY_DOWN, ""⟩
  | _ => none

/-- Python's `str.isprintable` on the ASCII range (control characters are not
printable).  The decoder claims below never reach this branch, so the
behaviour on non-ASCII characters is immaterial. -/
def isPrintable (c : Char) : Bool := 32 ≤ c.toNat && c.toNat ≤ 126

/-- `_read_key_event` from picker.py, with the injected reader replaced by an
explicit script consumed left to right.  Returns the decoded event (or `none`)
together with the rest of the script. -/
def readKeyEvent (s : Script) : Option KeyEvent × Script :=
  match readChar s with
  | (none, s1) => (none, s1)
  | (some c, s1) =>
    if c = '\x1b' then
      match readContinuation s1 with
      | (none, s2) => (some ⟨KEY_ESCAPE, ""⟩, s2)
      | (some c1, s2) =>
        if c1 = '[' ∨ c1 = 'O' then
          match readContinuation s2 with
          | (seq2, s3) =>
            match parseArrow seq2 with
            | some ev => (some ev, s3)
            | none => (some ⟨KEY_ESCAPE, ""⟩, s3)
        else
          (some ⟨KEY_ESCAPE, ""⟩, s2)
    else if c = '\n' ∨ c = '\r' then (some ⟨KEY_ENTER, ""⟩, s1)
    else if c = '\x7f' ∨ c = '\x08' then (some ⟨KEY_BACKSPACE, ""⟩, s1)
    else if isPrintable c then (some ⟨KEY_CHAR, String.singleton c⟩, s1)
    else (none, s1)

/-! ### Picker state and transition function (`PickerState`, `update_state`) -/

/-- `MAX_VISIBLE_RESULTS` from picker.py. -/
def MAX_VISIBLE_RESULTS : Nat := 15

/-- `PickerState` dataclass from picker.py.  The cursor is a Python `int`,
hence `Int` here. -/
structure PickerState where
  query : String
  cursor : Int
  results : List String
  total : Nat
  done : Bool
  selected : Option String
deriving DecidableEq

/-- Python's `query[:-1]`. -/
def dropLast1 (q : String) : String := (q.data.dropLast).asString

/-- `update_state` from picker.py, reexpressed as a pure function from the
old state to the new one.  `f` is the injected `filter_fn`, `candidates`
the full snapshot.  In the `KEY_ENTER` branch `results[cursor]` is embedded
as `getD` at `cursor.toNat`, which the guard keeps in bounds. -/
def updateState (f : String → List String → List String) (candidates : List String)
    (s : PickerState) (e : KeyEvent) : PickerState :=
  if e.kind = KEY_ESCAPE then
    { s with done := true, selected := none }
  else if e.kind = KEY_ENTER then
    { s with done := true,
             selected :=
               if s.results ≠ [] ∧ 0 ≤ s.cursor ∧ s.cursor < (s.results.length : Int) then
                 some (s.results.getD s.cursor.toNat "")
               else none }
  else if e.kind = KEY_BACKSPACE then
    if s.query ≠ "" then
      { s with query := dropLast1 s.query,
               results := f (dropLast1 s.query) candidates,
               cursor := 0 }
    else s
  else if e.kind = KEY_UP then
    { s with cursor := max 0 (s.cursor - 1) }
  else if e.kind = KEY_DOWN then
    { s with cursor := min (min (s.results.length : Int) (MAX_VISIBLE_RESULTS : Int) - 1)
                           (s.cursor + 1) }
  else if e.kind = KEY_CHAR then
    { s with query := s.query ++ e.char,
             results := f (s.query ++ e.char) candidates,
             cursor := 0 }
  else s

/-- The state `run_picker` starts from: empty query, results = full snapshot,
cursor 0, total = number of candidates. -/
def initState (candidates : List String) : PickerState :=
  ⟨"", 0, candidates, candidates.length, false, none⟩

/-- One application of `update_state`, together with the filter function and
candidate snapshot used for that application. -/
abbrev PickStep := KeyEvent × (String → List String → List String) × List String

/-- A sequence of bare `update_state` applications (no done-guard: this is
the raw transition function, not the session loop). -/
def applyUpdates (s : PickerState) : List PickStep → PickerState
  | [] => s
  | st :: rest => applyUpdates (updateState st.2.1 st.2.2 s st.1) rest

/-- The event-processing skeleton of `run_picker`'s `while not state.done`
loop: each decoded event is applied with `update_state`, and the loop stops
as soon as the state is done, leaving any later events unprocessed. -/
def runLoopEvents (f : String → List String → List String) (candidates : List String) :
    PickerState → List KeyEvent → PickerState
  | s, [] => s
  | s, e :: es =>
    if s.done then s else runLoopEvents f candidates (updateState f candidates s e) es

/-- Cursor invariant exactly as the spec states it:
`0 <= cursor < max(1, min(len(results), MAX_VISIBLE))`. -/
abbrev cursorInvariant (s : PickerState) : Prop :=
  0 ≤ s.cursor ∧
    s.cursor < max 1 (min (s.results.length : Int) (MAX_VISIBLE_RESULTS : Int))

/-- Cursor invariant that actually holds on the code: the lower bound is
`-1`, reached exactly by `KEY_DOWN` on an empty result list. -/
abbrev cursorInvariantAmended (s : PickerState) : Prop :=
  -1 ≤ s.cursor ∧
    s.cursor < max 1 (min (s.results.length : Int) (MAX_VISIBLE_RESULTS : Int)) ∧
    (s.cursor = -1 → s.results.length = 0)

/-! ### Fuzzy scorer and filter (`fuzzy.py`) -/

/-- Character strings fed to the fuzzy scorer, modelled as lists of
characters. -/
abbrev Str := List Char

/-- Condition `ti == 0 or text_lower[ti - 1] in (os.sep, "/", "_")` from
`fuzzy_match`, carried along as the previously scanned character
(`none` at the start of the text).  `os.sep` is `'/'` on the POSIX platform
the tool targets. -/
def boundaryOk : Option Char → Bool
  | none => true
  | some c => c = '/' || c = '_'

/-- The scanning loop of `fuzzy_match`: walk the (lowered) text left to
right carrying the text index `ti`, the previous character, the query index
`qi`, the accumulated `score` and `prev_match_idx` (`-2` initially).
Returns the final `(qi, score, prev_match_idx)`. -/
def fuzzyLoop (q : Str) : Str → Nat → Option Char → Nat → Int → Int → Nat × Int × Int
  | [], _, _, qi, score, prev => (qi, score, prev)
  | ch :: rest, ti, prevCh, qi, score, prev =>
    if qi < q.length ∧ q.getD qi ch = ch then
      let score1 := if (ti : Int) = prev + 1 then score + 3 else score
      let score2 := if boundaryOk prevCh then score1 + 2 else score1
      fuzzyLoop q rest (ti + 1) (some ch) (qi + 1) score2 (ti : Int)
    else
      fuzzyLoop q rest (ti + 1) (some ch) qi score prev

/-- `fuzzy_match` from fuzzy.py: `(matched, score)` of `query` against
`text`, case-insensitively (`Char.toLower` models `str.lower`). -/
def fuzzyMatch (query text : Str) : Bool × Int :=
  let ql := query.map Char.toLower
  let tl := text.map Char.toLower
  let r := fuzzyLoop ql tl 0 none 0 0 (-2)
  if r.1 = ql.length then
    (true, r.2.1 + max 0 ((tl.length : Int) - r.2.2))
  else
    (false, r.2.1)

/-- The `scored` list built inside `fuzzy_filter`: every matching candidate
paired with its score, in the original candidate order. -/
def scoredOf (query : Str) (candidates : List Str) : List (Int × Str) :=
  candidates.filterMap fun c =>
    if (fuzzyMatch query c).1 then some ((fuzzyMatch query c).2, c) else none

/-- Comparison used to embed `scored.sort(key=lambda t: t[0], reverse=True)`:
sorted means descending scores.  `List.insertionSort` with this relation is
the stable descending sort, the order Python's stable `list.sort` produces. -/
def scoreGe (a b : Int × Str) : Prop := b.1 ≤ a.1

instance : DecidableRel scoreGe := fun a b => inferInstanceAs (Decidable (b.1 ≤ a.1))

instance : IsTotal (Int × Str) scoreGe := ⟨fun a b => le_total b.1 a.1⟩

instance : IsTrans (Int × Str) scoreGe := ⟨fun _ _ _ h1 h2 => le_trans h2 h1⟩

/-- `fuzzy_filter` from fuzzy.py. -/
def fuzzyFilter (query : Str) (candidates : List Str) : List Str :=
  if query = [] then candidates
  else (List.insertionSort scoreGe (scoredOf query candidates)).map fun p => p.2

/-! ### Spec-side characterization of the ranked order (stability) -/

/-- Matching candidates annotated with their score and original position,
following the spec's words: the ranked output is "ordered by descending
score, candidates with equal scores in their original relative order". -/
def scoredIdxFrom (q : Str) : List Str → Nat → List (Int × Nat × Str)
  | [], _ => []
  | c :: cs, i =>
    (if (fuzzyMatch q c).1 then [((fuzzyMatch q c).2, i, c)] else []) ++
      scoredIdxFrom q cs (i + 1)

/-- The spec's total order on annotated candidates: strictly higher score
first, ties broken by original position. -/
def specLe (a b : Int × Nat × Str) : Prop :=
  b.1 < a.1 ∨ (a.1 = b.1 ∧ a.2.1 ≤ b.2.1)

instance : DecidableRel specLe :=
  fun a b => inferInstanceAs (Decidable (b.1 < a.1 ∨ (a.1 = b.1 ∧ a.2.1 ≤ b.2.1)))

/-- Forgets the position annotation. -/
def dropIdx (p : Int × Nat × Str) : Int × Str := (p.1, p.2.2)

/-! ### Renderer (`render` from picker.py) -/

def ansiBold : String := "\x1b[1m"

def ansiCyan : String := "\x1b[36m"

def ansiReverse : String := "\x1b[7m"

def ansiReset : String := "\x1b[0m"

/-- Header line of the frame: prompt label followed by the query. -/
def headerMark : String := ansiBold ++ ansiCyan ++ "Filter >" ++ ansiReset ++ " "

def headerLine (query : String) : String := headerMark ++ query

/-- Counter text of the summary line. -/
def countText (nResults total : Nat) : String :=
  toString nResults ++ "/" ++ toString total ++ " matches"

/-- Summary line of the frame. -/
def summaryLine (nResults total : Nat) : String :=
  ("  " ++ ansiCyan) ++ countText nResults total ++ ansiReset

/-- The highlighted result row (the one at the cursor). -/
def hlRow (item : String) : String :=
  "  " ++ ansiReverse ++ ansiBold ++ "❯ " ++ item ++ ansiReset

/-- A plain (non-highlighted) result row. -/
def plainRow (item : String) : String := "    " ++ item

/-- The placeholder printed when there are no visible results. -/
def noMatchesRow : String := "  " ++ ansiCyan ++ "(no matches)" ++ ansiReset

/-- Loop `for i, item in enumerate(visible)` of `render`: one row per visible
item, the row whose index equals the cursor highlighted. -/
def renderRows (cursor : Int) : List String → Nat → List String
  | [], _ => []
  | item :: rest, i =>
    (if (i : Int) = cursor then hlRow item else plainRow item) :: renderRows cursor rest (i + 1)

/-- The list of lines `render` builds before joining them with newlines. -/
def renderLines (s : PickerState) : List String :=
  headerLine s.query ::
    summaryLine s.results.length s.total ::
      (renderRows s.cursor (s.results.take MAX_VISIBLE_RESULTS) 0 ++
        (if s.results.take MAX_VISIBLE_RESULTS = [] then [noMatchesRow] else []))

/-- `render` from picker.py: the joined frame. -/
def render (s : PickerState) : String :=
  String.intercalate "\n" (renderLines s)

/-- Detects the visual distinction of the highlighted row: result rows start
with two spaces, and only the highlighted one then opens an ANSI style
sequence (ESC at character index 2); plain rows have a space there. -/
def isHighlightedLine (line : String) : Bool := line.data.getD 2 ' ' = '\x1b'

/-! ### Helper lemmas about the key decoder -/

lemma readContinuationAux_gap (g : Nat) :
    ∀ n, g < n → ∀ (c : Char) (rest : Script),
      readContinuationAux n (List.replicate g none ++ some c :: rest) = (some c, rest) := by
  induction g with
  | zero =>
    intro n hn c rest
    cases n with
    | zero => omega
    | succ m => simp [readContinuationAux, readChar]
  | succ g ih =>
    intro n hn c rest
    cases n with
    | zero => omega
    | succ m =>
      simp only [List.replicate, List.cons_append, readContinuationAux, readChar]
      exact ih m (by omega) c rest

lemma readContinuation_gap {g : Nat} (h : g < escReadRetries) (c : Char) (rest : Script) :
    readContinuation (List.replicate g none ++ some c :: rest) = (some c, rest) := by
  unfold readContinuation
  exact readContinuationAux_gap g escReadRetries h c rest

lemma readContinuationAux_exhaust (n : Nat) :
    ∀ t : Script, readContinuationAux n (List.replicate n (none : Option Char) ++ t) = (none, t) := by
  induction n with
  | zero => intro t; simp [readContinuationAux]
  | succ m ih =>
    intro t
    simp only [List.replicate, List.cons_append, readContinuationAux, readChar]
    exact ih t

lemma readContinuation_exhaust (t : Script) :
    readContinuation (List.replicate escReadRetries (none : Option Char) ++ t) = (none, t) :=
  readContinuationAux_exhaust escReadRetries t

lemma decode_arrow_sequence {g1 g2 : Nat} (h1 : g1 < escReadRetries) (h2 : g2 < escReadRetries)
    {b1 : Char} (hb1 : b1 = '[' ∨ b1 = 'O') (d : Char) (rest : Script) :
    readKeyEvent (some '\x1b' ::
        (List.replicate g1 none ++ some b1 :: (List.replicate g2 none ++ some d :: rest))) =
      match parseArrow (some d) with
      | some ev => (some ev, rest)
      | none => (some ⟨KEY_ESCAPE, ""⟩, rest) := by
  rcases hb1 with hb | hb <;> subst hb <;>
    simp [readKeyEvent, readChar, readContinuation_gap h1, readContinuation_gap h2]

/-! ### Claims about the key decoder -/

/-- Claim C2, counterexample: the escape character followed by exactly 4
consecutive sentinels and then a real follow-up byte does NOT have the
follow-up read; `ESC, 4 sentinels, '[', 'A'` decodes to Escape, not to
ArrowUp, because `_read_continuation` makes at most 4 read attempts in
total and all 4 hit sentinels. -/
theorem esc_four_gaps_decodes_escape :
    (readKeyEvent [some '\x1b', none, none, none, none, some '[', some 'A']).1 =
        some ⟨KEY_ESCAPE, ""⟩ ∧
      (readKeyEvent [some '\x1b', none, none, none, none, some '[', some 'A']).1 ≠
        some ⟨KEY_UP, ""⟩ := by
  decide

/-- Claim C2 (amended): while parsing an escape sequence the key decoder
tolerates up to 3 consecutive "no data" sentinels before a follow-up unit:
a follow-up byte after at most 3 sentinels is still read, while a run of 4
sentinels exhausts the retry budget and the follow-up is not read; in
particular `ESC, g sentinels, '[', 'A'` with `g ≤ 3` decodes to ArrowUp,
whereas with 4 sentinels between ESC and `'['` it decodes to Escape. -/
theorem gap_tolerance_three (g : Nat) (hg : g ≤ 3) (c : Char) (rest : Script) :
    readContinuation (List.replicate g none ++ some c :: rest) = (some c, rest) ∧
      readContinuation (List.replicate 4 (none : Option Char) ++ some c :: rest) =
        (none, some c :: rest) ∧
      (readKeyEvent (some '\x1b' ::
          (List.replicate g none ++ some '[' :: some 'A' :: rest))).1 = some ⟨KEY_UP, ""⟩ ∧
      (readKeyEvent (some '\x1b' ::
          (List.replicate 4 (none : Option Char) ++ some '[' :: some 'A' :: rest))).1 =
        some ⟨KEY_ESCAPE, ""⟩ := by
  have h4 : g < escReadRetries := by simp [escReadRetries]; omega
  refine ⟨readContinuation_gap h4 c rest, readContinuation_exhaust (some c :: rest), ?_, ?_⟩
  · have h := @decode_arrow_sequence g 0 h4 (by simp [escReadRetries]) '['
      (Or.inl rfl) 'A' rest
    simp only [List.replicate, List.nil_append] at h
    rw [h]
    rfl
  · unfold readKeyEvent
    simp only [readChar]
    rw [show (4 : Nat) = escReadRetries from rfl,
      readContinuation_exhaust (some '[' :: some 'A' :: rest)]
    rfl

/-- Witness for `gap_tolerance_three` at `g = 3`. -/
theorem gap_tolerance_three_witness :
    (3 : Nat) ≤ 3 ∧
      (readKeyEvent (some '\x1b' ::
          (List.replicate 3 none ++ some '[' :: some 'A' :: []))).1 = some ⟨KEY_UP, ""⟩ :=
  ⟨by decide, (gap_tolerance_three 3 (by decide) '[' []).2.2.1⟩

/-- Claim C3: a stream delivering `ESC, b1, d` with `b1` one of `'['`/`'O'`
and at most 3 sentinels interleaved between any two consecutive bytes
decodes, in a single call, to ArrowUp for `d = 'A'` and ArrowDown for
`d = 'B'`, whatever follows in the stream. -/
theorem arrow_sequences_with_gaps_decode (g1 g2 : Nat) (h1 : g1 ≤ 3) (h2 : g2 ≤ 3)
    (b1 : Char) (hb1 : b1 = '[' ∨ b1 = 'O') (rest : Script) :
    (readKeyEvent (some '\x1b' ::
        (List.replicate g1 none ++ some b1 :: (List.replicate g2 none ++ some 'A' :: rest)))).1 =
        some ⟨KEY_UP, ""⟩ ∧
      (readKeyEvent (some '\x1b' ::
          (List.replicate g1 none ++ some b1 :: (List.replicate g2 none ++ some 'B' :: rest)))).1 =
        some ⟨KEY_DOWN, ""⟩ := by
  have ha : g1 < escReadRetries := by simp [escReadRetries]; omega
  have hb : g2 < escReadRetries := by simp [escReadRetries]; omega
  constructor
  · rw [decode_arrow_sequence ha hb hb1 'A' rest]
    rfl
  · rw [decode_arrow_sequence ha hb hb1 'B' rest]
    rfl

/-- Witness for `arrow_sequences_with_gaps_decode` with 3 sentinels in each
gap and the application-mode introducer `'O'`. -/
theorem arrow_sequences_with_gaps_decode_witness :
    (3 : Nat) ≤ 3 ∧
      (readKeyEvent (some '\x1b' ::
          (List.replicate 3 none ++ some 'O' :: (List.replicate 3 none ++ some 'B' :: [])))).1 =
        some ⟨KEY_DOWN, ""⟩ :=
  ⟨by decide,
    (arrow_sequences_with_gaps_decode 3 3 (by decide) (by decide) 'O' (Or.inr rfl) []).2⟩

/-- Claim C6: if the decoder's first read yields the escape character and the
stream never completes an arrow sequence — the first follow-up within the
gap tolerance is missing or is not `'['`/`'O'`, or the second follow-up is
not `'A'`/`'B'` — then the decoder returns the Escape event: never "no
event" and never a different key. -/
theorem incomplete_escape_decodes_escape (t : Script)
    (h : ∀ c1, (readContinuation t).1 = some c1 → c1 = '[' ∨ c1 = 'O' →
      parseArrow (readContinuation (readContinuation t).2).1 = none) :
    (readKeyEvent (some '\x1b' :: t)).1 = some ⟨KEY_ESCAPE, ""⟩ := by
  unfold readKeyEvent
  simp only [readChar, if_true]
  rcases hc : readContinuation t with ⟨c1opt, s2⟩
  cases c1opt with
  | none => rfl
  | some c1 =>
    by_cases hb : c1 = '[' ∨ c1 = 'O'
    · have hpa := h c1 (by rw [hc]) hb
      rw [hc] at hpa
      simp only at hpa
      rcases hb with hb | hb <;> subst hb <;> simp [hpa]
    · simp [hb]

/-- Witness for `incomplete_escape_decodes_escape`: a bare `ESC` with no
further bytes ever arriving decodes to Escape. -/
theorem incomplete_escape_decodes_escape_witness :
    (readKeyEvent [some '\x1b']).1 = some ⟨KEY_ESCAPE, ""⟩ := by
  apply incomplete_escape_decodes_escape []
  intro c1 hc1 hor
  have hnone : (readContinuation ([] : Script)).1 = none := by decide
  rw [hnone] at hc1
  cases hc1

/-! ### Claims about the transition function -/

lemma amended_mk (q : String) (c : Int) (r : List String) (t : Nat) (d : Bool)
    (sel : Option String) :
    cursorInvariantAmended ⟨q, c, r, t, d, sel⟩ ↔
      -1 ≤ c ∧ c < max 1 (min (r.length : Int) (MAX_VISIBLE_RESULTS : Int)) ∧
        (c = -1 → r.length = 0) :=
  Iff.rfl

lemma updateState_preserves_amended (f : String → List String → List String)
    (candidates : List String) (s : PickerState) (e : KeyEvent)
    (h : cursorInvariantAmended s) :
    cursorInvariantAmended (updateState f candidates s e) := by
  obtain ⟨h1, h2, h3⟩ := h
  have hM : ((MAX_VISIBLE_RESULTS : Nat) : Int) = 15 := rfl
  unfold updateState
  split_ifs
  all_goals first
    | exact ⟨h1, h2, h3⟩
    | (rw [amended_mk]; omega)

lemma applyUpdates_preserves_amended (steps : List PickStep) :
    ∀ s : PickerState, cursorInvariantAmended s → cursorInvariantAmended (applyUpdates s steps) := by
  induction steps with
  | nil => intro s hs; exact hs
  | cons st rest ih =>
    intro s hs
    exact ih _ (updateState_preserves_amended st.2.1 st.2.2 s st.1 hs)

/-- Claim C1, counterexample: the invariant
`0 <= cursor < max(1, min(len(results), MAX_VISIBLE_RESULTS))` does NOT hold
for every reachable state: one ArrowDown applied to the initial state over an
empty snapshot (whose results list is empty) drives the cursor to `-1`,
because `min(len(results), MAX_VISIBLE_RESULTS) - 1 = -1` then. -/
theorem arrowDown_empty_breaks_cursor_invariant :
    (applyUpdates (initState []) [(⟨KEY_DOWN, ""⟩, fun _ c => c, [])]).cursor = -1 ∧
      ¬ cursorInvariant (applyUpdates (initState []) [(⟨KEY_DOWN, ""⟩, fun _ c => c, [])]) := by
  decide

/-- Claim C1 (amended): for every state reachable from the initial picker
state by any sequence of `update_state` applications (with arbitrary key
events, filter functions and candidate snapshots), the invariant
`-1 <= cursor < max(1, min(len(results), MAX_VISIBLE_RESULTS))` holds, and
`cursor = -1` is possible only when the results list is empty (it is reached
exactly by ArrowDown on empty results, where the spec's lower bound `0`
fails). -/
theorem reachable_cursor_invariant_amended (candidates : List String)
    (steps : List PickStep) :
    cursorInvariantAmended (applyUpdates (initState candidates) steps) := by
  apply applyUpdates_preserves_amended
  refine ⟨by simp [initState], ?_, by simp [initState]⟩
  have : (1 : Int) ≤ max 1 (min ((initState candidates).results.length : Int)
      (MAX_VISIBLE_RESULTS : Int)) := le_max_left _ _
  simp only [initState] at this ⊢
  omega

/-- Claim C4: applying `update_state` with an Enter event to a non-done state
sets `done` and resolves `selected`: it becomes `results[cursor]` when the
results are non-empty and the cursor is in range, and `none` (cancellation,
with no failure) in every other case; `query`, `cursor`, `results` and
`total` are unchanged. -/
theorem enter_accepts_or_cancels (f : String → List String → List String)
    (candidates : List String) (s : PickerState) (h : s.done = false) :
    (updateState f candidates s ⟨KEY_ENTER, ""⟩).done = true ∧
      (updateState f candidates s ⟨KEY_ENTER, ""⟩).query = s.query ∧
      (updateState f candidates s ⟨KEY_ENTER, ""⟩).cursor = s.cursor ∧
      (updateState f candidates s ⟨KEY_ENTER, ""⟩).results = s.results ∧
      (updateState f candidates s ⟨KEY_ENTER, ""⟩).total = s.total ∧
      (s.results ≠ [] ∧ 0 ≤ s.cursor ∧ s.cursor < (s.results.length : Int) →
        (updateState f candidates s ⟨KEY_ENTER, ""⟩).selected =
          some (s.results.getD s.cursor.toNat "")) ∧
      (¬(s.results ≠ [] ∧ 0 ≤ s.cursor ∧ s.cursor < (s.results.length : Int)) →
        (updateState f candidates s ⟨KEY_ENTER, ""⟩).selected = none) := by
  unfold updateState
  rw [if_neg (by decide : ¬((⟨KEY_ENTER, ""⟩ : KeyEvent).kind = KEY_ESCAPE)),
    if_pos (rfl : (⟨KEY_ENTER, ""⟩ : KeyEvent).kind = KEY_ENTER)]
  refine ⟨rfl, rfl, rfl, rfl, rfl, fun hc => ?_, fun hc => ?_⟩
  · show (if s.results ≠ [] ∧ 0 ≤ s.cursor ∧ s.cursor < (s.results.length : Int)
        then some (s.results.getD s.cursor.toNat "") else none) = _
    rw [if_pos hc]
  · show (if s.results ≠ [] ∧ 0 ≤ s.cursor ∧ s.cursor < (s.results.length : Int)
        then some (s.results.getD s.cursor.toNat "") else none) = _
    rw [if_neg hc]

/-- Witness for `enter_accepts_or_cancels`: Enter on a non-done state with
three results and cursor 1 accepts the second result. -/
theorem enter_accepts_or_cancels_witness :
    (⟨"q", 1, ["a", "b", "c"], 3, false, none⟩ : PickerState).done = false ∧
      (updateState (fun _ c => c) []
          ⟨"q", 1, ["a", "b", "c"], 3, false, none⟩ ⟨KEY_ENTER, ""⟩).selected = some "b" := by
  refine ⟨rfl, ?_⟩
  have h := enter_accepts_or_cancels (fun _ c => c) []
    ⟨"q", 1, ["a", "b", "c"], 3, false, none⟩ rfl
  exact h.2.2.2.2.2.1 (by decide)

/-- Claim C7, counterexample: `update_state` itself does NOT leave a done
state unchanged: it never inspects `done`, so a Char event applied to a done
state still edits the query (and an Escape event would overwrite
`selected`). -/
theorem updateState_not_guarded_by_done :
    (updateState (fun _ c => c) ["a"]
        ⟨"q", 0, ["a"], 1, true, some "a"⟩ ⟨KEY_CHAR, "x"⟩).query = "qx" ∧
      updateState (fun _ c => c) ["a"]
          ⟨"q", 0, ["a"], 1, true, some "a"⟩ ⟨KEY_CHAR, "x"⟩ ≠
        ⟨"q", 0, ["a"], 1, true, some "a"⟩ := by
  decide

/-- Claim C7 (amended): events received after `done` are ignored by the
session loop, not by `update_state` itself: `run_picker`'s loop stops
applying events as soon as the state is done, so the state — every field of
it — is left unchanged by any further events, while a bare `update_state`
call on a done state can still modify fields. -/
theorem loop_ignores_events_after_done (f : String → List String → List String)
    (candidates : List String) (s : PickerState) (events : List KeyEvent)
    (h : s.done = true) :
    runLoopEvents f candidates s events = s := by
  cases events with
  | nil => rfl
  | cons e es => simp [runLoopEvents, h]

/-- Witness for `loop_ignores_events_after_done` on a concrete done state and
a pending Char event. -/
theorem loop_ignores_events_after_done_witness :
    (⟨"q", 0, ["a"], 1, true, some "a"⟩ : PickerState).done = true ∧
      runLoopEvents (fun _ c => c) [] ⟨"q", 0, ["a"], 1, true, some "a"⟩ [⟨KEY_CHAR, "x"⟩] =
        ⟨"q", 0, ["a"], 1, true, some "a"⟩ :=
  ⟨rfl, loop_ignores_events_after_done (fun _ c => c) [] _ _ rfl⟩

/-! ### Claims about the fuzzy scorer and filter -/

lemma fuzzyLoop_nil_query :
    ∀ (t : Str) (ti : Nat) (prevCh : Option Char) (qi : Nat) (score prev : Int),
      fuzzyLoop [] t ti prevCh qi score prev = (qi, score, prev) := by
  intro t
  induction t with
  | nil => intro ti prevCh qi score prev; rfl
  | cons ch rest ih =>
    intro ti prevCh qi score prev
    simp only [fuzzyLoop, List.length_nil, Nat.not_lt_zero, false_and, if_false]
    exact ih (ti + 1) (some ch) qi score prev

/-- Claim C10: the empty query always matches, with score exactly
`len(text) + 2`: the loop matches nothing, so the trailing-tail bonus
`max(0, len - prev_match_idx)` is computed from the sentinel `-2`, giving
`len + 2` — in particular `2` even on the empty text, never the `0`
baseline. -/
theorem empty_query_score (t : Str) :
    fuzzyMatch [] t = (true, (t.length : Int) + 2) := by
  unfold fuzzyMatch
  simp only [List.map_nil, fuzzyLoop_nil_query, List.length_nil, List.length_map]
  norm_num
  omega

lemma scoredOf_mem {q : Str} {C : List Str} {p : Int × Str} (hp : p ∈ scoredOf q C) :
    (fuzzyMatch q p.2).1 = true ∧ (fuzzyMatch q p.2).2 = p.1 := by
  unfold scoredOf at hp
  rcases List.mem_filterMap.mp hp with ⟨c, _, hsome⟩
  by_cases hm : (fuzzyMatch q c).1
  · rw [if_pos hm] at hsome
    cases hsome
    exact ⟨hm, rfl⟩
  · rw [if_neg hm] at hsome
    cases hsome

lemma scoredOf_map_self {q : Str} :
    ∀ {L : List (Int × Str)},
      (∀ p ∈ L, (fuzzyMatch q p.2).1 = true ∧ (fuzzyMatch q p.2).2 = p.1) →
      scoredOf q (L.map fun p => p.2) = L := by
  intro L
  induction L with
  | nil => intro _; rfl
  | cons p rest ih =>
    intro h
    have hp := h p (List.mem_cons_self p rest)
    have hrest := ih fun x hx => h x (List.mem_cons_of_mem p hx)
    simp only [scoredOf, List.map_cons, List.filterMap_cons, hp.1, if_true, hp.2]
    unfold scoredOf at hrest
    rw [hrest]

/-- Claim C8: refiltering an already-filtered result with the same query is
the identity: every surviving candidate still matches with the same score,
and the stable descending sort of an already-sorted list is itself. -/
theorem fuzzyFilter_idempotent (q : Str) (C : List Str) :
    fuzzyFilter q (fuzzyFilter q C) = fuzzyFilter q C := by
  by_cases hq : q = []
  · subst hq
    simp [fuzzyFilter]
  · unfold fuzzyFilter
    rw [if_neg hq, if_neg hq]
    have hmem : ∀ p ∈ List.insertionSort scoreGe (scoredOf q C),
        (fuzzyMatch q p.2).1 = true ∧ (fuzzyMatch q p.2).2 = p.1 := by
      intro p hp
      exact scoredOf_mem ((List.mem_insertionSort scoreGe).mp hp)
    rw [scoredOf_map_self hmem,
      List.Sorted.insertionSort_eq (List.sorted_insertionSort scoreGe (scoredOf q C))]

lemma scoredIdxFrom_map_dropIdx (q : Str) :
    ∀ (cs : List Str) (i : Nat), (scoredIdxFrom q cs i).map dropIdx = scoredOf q cs := by
  intro cs
  induction cs with
  | nil => intro i; rfl
  | cons c rest ih =>
    intro i
    by_cases hm : (fuzzyMatch q c).1
    · simp [scoredIdxFrom, scoredOf, List.filterMap_cons, hm, dropIdx, ih i.succ]
    · simp [scoredIdxFrom, scoredOf, List.filterMap_cons, hm, ih i.succ]

lemma scoredIdxFrom_idx_ge (q : Str) :
    ∀ (cs : List Str) (i : Nat), ∀ p ∈ scoredIdxFrom q cs i, i ≤ p.2.1 := by
  intro cs
  induction cs with
  | nil => intro i p hp; cases hp
  | cons c rest ih =>
    intro i p hp
    unfold scoredIdxFrom at hp
    rcases List.mem_append.mp hp with hl | hr
    · by_cases hm : (fuzzyMatch q c).1
      · rw [if_pos hm] at hl
        rcases List.mem_singleton.mp hl with rfl
        exact le_refl i
      · rw [if_neg hm] at hl
        cases hl
    · exact Nat.le_of_succ_le (ih (i + 1) p hr)

lemma scoredIdxFrom_pairwise (q : Str) :
    ∀ (cs : List Str) (i : Nat),
      List.Pairwise (fun a b => a.2.1 < b.2.1) (scoredIdxFrom q cs i) := by
  intro cs
  induction cs with
  | nil => intro i; exact List.Pairwise.nil
  | cons c rest ih =>
    intro i
    unfold scoredIdxFrom
    by_cases hm : (fuzzyMatch q c).1
    · rw [if_pos hm]
      simp only [List.singleton_append, List.pairwise_cons]
      refine ⟨fun p hp => ?_, ih (i + 1)⟩
      exact Nat.lt_of_succ_le (scoredIdxFrom_idx_ge q rest (i + 1) p hp)
    · rw [if_neg hm]
      simpa using ih (i + 1)

lemma orderedInsert_dropIdx (a : Int × Nat × Str) :
    ∀ l : List (Int × Nat × Str), (∀ x ∈ l, a.2.1 < x.2.1) →
      (List.orderedInsert specLe a l).map dropIdx =
        List.orderedInsert scoreGe (dropIdx a) (l.map dropIdx) := by
  intro l
  induction l with
  | nil => intro _; rfl
  | cons b l ih =>
    intro h
    have hidx : a.2.1 < b.2.1 := h b (List.mem_cons_self b l)
    have hab : specLe a b ↔ scoreGe (dropIdx a) (dropIdx b) := by
      unfold specLe scoreGe dropIdx
      constructor
      · intro hs
        omega
      · intro hs
        simp only at hs
        omega
    by_cases hd : specLe a b
    · rw [List.orderedInsert_of_le specLe _ hd, List.map_cons, List.map_cons,
        List.orderedInsert_of_le scoreGe _ (hab.mp hd)]
    · have hd2 : ¬ scoreGe (dropIdx a) (dropIdx b) := fun hc => hd (hab.mpr hc)
      simp only [List.orderedInsert, if_neg hd, List.map_cons, if_neg hd2]
      rw [ih fun x hx => h x (List.mem_cons_of_mem b hx)]

lemma insertionSort_dropIdx :
    ∀ l : List (Int × Nat × Str), List.Pairwise (fun a b => a.2.1 < b.2.1) l →
      (List.insertionSort specLe l).map dropIdx = List.insertionSort scoreGe (l.map dropIdx) := by
  intro l
  induction l with
  | nil => intro _; rfl
  | cons a l ih =>
    intro h
    rw [List.pairwise_cons] at h
    obtain ⟨h1, h2⟩ := h
    simp only [List.insertionSort, List.map_cons]
    rw [orderedInsert_dropIdx a _ fun x hx => h1 x ((List.mem_insertionSort specLe).mp hx),
      ih h2]

lemma scoredOf_map_snd (q : Str) :
    ∀ C : List Str, (scoredOf q C).map (fun p => p.2) = C.filter fun c => (fuzzyMatch q c).1 := by
  intro C
  induction C with
  | nil => rfl
  | cons c rest ih =>
    by_cases hm : (fuzzyMatch q c).1
    · simp [scoredOf, List.filterMap_cons, List.filter_cons, hm]
      unfold scoredOf at ih
      rw [ih]
    · simp [scoredOf, List.filterMap_cons, List.filter_cons, hm]
      unfold scoredOf at ih
      rw [ih]

/-- Claim C5: the empty query returns the candidates unchanged in original
order; a non-empty query returns exactly the candidates whose `fuzzy_match`
is true, in descending score order, equal scores keeping their original
relative order (the output is the annotated list sorted by the strict
"higher score first, ties by position" order, position-annotations
dropped). -/
theorem filter_order_characterization (q : Str) (C : List Str) :
    fuzzyFilter [] C = C ∧
      (q ≠ [] →
        fuzzyFilter q C =
            (List.insertionSort specLe (scoredIdxFrom q C 0)).map (fun p => p.2.2) ∧
          (fuzzyFilter q C).Perm (C.filter fun c => (fuzzyMatch q c).1) ∧
          List.Pairwise (fun a b => (fuzzyMatch q b).2 ≤ (fuzzyMatch q a).2) (fuzzyFilter q C)) := by
  constructor
  · simp [fuzzyFilter]
  · intro hq
    have hff : fuzzyFilter q C = (List.insertionSort scoreGe (scoredOf q C)).map fun p => p.2 := by
      unfold fuzzyFilter
      rw [if_neg hq]
    refine ⟨?_, ?_, ?_⟩
    · rw [hff, ← scoredIdxFrom_map_dropIdx q C 0,
        ← insertionSort_dropIdx _ (scoredIdxFrom_pairwise q C 0), List.map_map]
      rfl
    · rw [hff]
      have h1 := (List.perm_insertionSort scoreGe (scoredOf q C)).map fun p : Int × Str => p.2
      rw [scoredOf_map_snd q C] at h1
      exact h1
    · rw [hff, List.pairwise_map]
      have hs := List.sorted_insertionSort scoreGe (scoredOf q C)
      refine List.Pairwise.imp_of_mem ?_ hs
      intro a b ha hb hab
      have ha2 := scoredOf_mem ((List.mem_insertionSort scoreGe).mp ha)
      have hb2 := scoredOf_mem ((List.mem_insertionSort scoreGe).mp hb)
      rw [ha2.2, hb2.2]
      exact hab

/-- Witness for `filter_order_characterization` on the query `"a"` and three
candidates, of which two match. -/
theorem filter_order_characterization_witness :
    (['a'] : Str) ≠ [] ∧
      fuzzyFilter ['a'] [['b', 'a'], ['a'], ['x']] =
        (List.insertionSort specLe (scoredIdxFrom ['a'] [['b', 'a'], ['a'], ['x']] 0)).map
          (fun p => p.2.2) :=
  ⟨by decide,
    ((filter_order_characterization ['a'] [['b', 'a'], ['a'], ['x']]).2 (by decide)).1⟩

/-! ### Claims about the renderer -/

lemma renderRows_length (c : Int) :
    ∀ (items : List String) (i : Nat), (renderRows c items i).length = items.length := by
  intro items
  induction items with
  | nil => intro i; rfl
  | cons x rest ih =>
    intro i
    simp [renderRows, ih (i + 1)]

lemma renderRows_getD (c : Int) :
    ∀ (items : List String) (i0 j : Nat), j < items.length →
      (renderRows c items i0).getD j "" =
        if ((i0 + j : Nat) : Int) = c then hlRow (items.getD j "")
        else plainRow (items.getD j "") := by
  intro items
  induction items with
  | nil => intro i0 j hj; simp at hj
  | cons x rest ih =>
    intro i0 j hj
    cases j with
    | zero => simp [renderRows]
    | succ j2 =>
      have harith : i0 + 1 + j2 = i0 + (j2 + 1) := by omega
      simp only [renderRows, List.getD_cons_succ]
      rw [ih (i0 + 1) j2 (by simpa using hj), harith]

lemma isHighlightedLine_hlRow (x : String) : isHighlightedLine (hlRow x) = true := rfl

lemma isHighlightedLine_plainRow (x : String) : isHighlightedLine (plainRow x) = false := rfl

/-- Claim C9: with a valid cursor (or cursor 0 on empty results), the frame
consists of: a header line containing the query, a summary line containing
the text `<len(results)>/<total> matches`, then exactly
`min(len(results), 15)` result rows of which exactly the row at the cursor
index carries the highlight styling — or a single "(no matches)" placeholder
row when the results are empty — so the frame has exactly
`2 + max(1, min(len(results), 15))` lines. -/
theorem render_frame_shape (s : PickerState)
    (h : (0 ≤ s.cursor ∧ s.cursor < min (s.results.length : Int) (MAX_VISIBLE_RESULTS : Int)) ∨
      (s.results = [] ∧ s.cursor = 0)) :
    (renderLines s).length = 2 + max 1 (min s.results.length MAX_VISIBLE_RESULTS) ∧
      (∃ pre post : List Char,
        ((renderLines s).getD 0 "").data = pre ++ s.query.data ++ post) ∧
      (∃ pre post : List Char,
        ((renderLines s).getD 1 "").data =
          pre ++ (countText s.results.length s.total).data ++ post) ∧
      (s.results = [] → (renderLines s).drop 2 = [noMatchesRow]) ∧
      (s.results ≠ [] →
        ((renderLines s).drop 2).length = min s.results.length MAX_VISIBLE_RESULTS ∧
          ∀ j, j < min s.results.length MAX_VISIBLE_RESULTS →
            isHighlightedLine (((renderLines s).drop 2).getD j "") =
              decide ((j : Int) = s.cursor)) := by
  refine ⟨?_, ⟨headerMark.data, [], ?_⟩, ⟨("  " ++ ansiCyan).data, ansiReset.data, ?_⟩, ?_, ?_⟩
  · by_cases hres : s.results = []
    · simp [renderLines, hres, renderRows, MAX_VISIBLE_RESULTS]
    · have hlen : 0 < s.results.length := List.length_pos.mpr hres
      simp [renderLines, hres, renderRows_length, List.length_take, MAX_VISIBLE_RESULTS]
      omega
  · simp [renderLines, headerLine, String.data_append]
  · simp [renderLines, summaryLine, String.data_append]
  · intro hres
    have hvis : s.results.take MAX_VISIBLE_RESULTS = [] := by simp [hres]
    simp [renderLines, hvis, renderRows]
  · intro hres
    have hdrop : (renderLines s).drop 2 =
        renderRows s.cursor (s.results.take MAX_VISIBLE_RESULTS) 0 := by
      simp [renderLines, List.take_eq_nil_iff, hres, MAX_VISIBLE_RESULTS]
    constructor
    · rw [hdrop, renderRows_length, List.length_take]
      exact Nat.min_comm _ _
    · intro j hj
      rw [hdrop,
        renderRows_getD s.cursor (s.results.take MAX_VISIBLE_RESULTS) 0 j
          (by rw [List.length_take]; omega)]
      by_cases hc : ((0 + j : Nat) : Int) = s.cursor
      · rw [if_pos hc, isHighlightedLine_hlRow]
        have hcj : ((j : Nat) : Int) = s.cursor := by push_cast at hc ⊢; omega
        simp [hcj]
      · rw [if_neg hc, isHighlightedLine_plainRow]
        have hcj : ¬ ((j : Nat) : Int) = s.cursor := by push_cast at hc ⊢; omega
        simp [hcj]

/-- Witness for `render_frame_shape` on a three-result state with the
cursor on the middle row. -/
theorem render_frame_shape_witness :
    ((0 : Int) ≤ 1 ∧ (1 : Int) < min ((3 : Nat) : Int) (MAX_VISIBLE_RESULTS : Int)) ∧
      (renderLines ⟨"ab", 1, ["x", "y", "z"], 3, false, none⟩).length =
        2 + max 1 (min (["x", "y", "z"] : List String).length MAX_VISIBLE_RESULTS) := by
  constructor
  · decide
  · exact (render_frame_shape ⟨"ab", 1, ["x", "y", "z"], 3, false, none⟩
      (Or.inl (by decide))).1

end PytestWatcher
